import Mathlib

/-!
Verification of the stratified Poisson estimation core of cvxstrat, as it is
exercised by src/examples/crime.py.  The example script builds per-attribute
regularization graphs, combines them with cvxstrat.cartesian_product, turns
the event records into a dense per-node count vector (df_to_data), fits a
graph-regularized Poisson model and scores it with the average negative
log-likelihood.  df_to_data is embedded from the source; the cvxstrat library
functions themselves are not part of the staged sources, so they are modelled
from the specification, pinned where possible by how crime.py calls them.
-/

namespace Cvxstrat

/-- Node of a factor or product regularization graph: an ordered tuple of
discrete indices.  Factors with scalar values (the cycle graphs for week, day
and hour) have singleton tuples; the 2-D location grid has pairs, and crime.py
line 140 accesses product nodes as loc + (i, j, k), the concatenation of the
factor tuples. -/
abbrev Node := List Nat

/-- Modelled from the spec: the cvxstrat library is not under src/, only its
caller crime.py.  A FactorGraph is the regularization graph of one attribute
dimension: its node tuples, its edges, and the single uniform smoothing weight
that cvxstrat.set_edge_weight installs on all its edges before the product is
rebuilt. -/
structure FactorGraph where
  nodes : List Node
  edges : List (Node × Node)
  weight : ℚ
deriving DecidableEq

instance : Inhabited FactorGraph := ⟨⟨[], [], 0⟩⟩

/-- Modelled from the spec: node set of the Cartesian product of the factor
graphs, in factor order; every product node concatenates one node tuple per
factor (crime.py line 140 builds product keys as loc + (i, j, k)). -/
def productNodes : List FactorGraph → List Node
  | [] => [[]]
  | g :: rest => g.nodes.flatMap (fun x => (productNodes rest).map (fun t => x ++ t))

/-- Modelled from the spec: weighted edge set of the product graph.  Two
product nodes are adjacent iff they differ in exactly one factor block and
that factor has an edge between the differing values; the product edge
inherits that factor's weight.  Generatively: for each factor, one product
edge per factor edge and per choice of the other factors' nodes. -/
def productEdges : List FactorGraph → List ((Node × Node) × ℚ)
  | [] => []
  | g :: rest =>
      g.edges.flatMap
        (fun e => (productNodes rest).map (fun t => ((e.1 ++ t, e.2 ++ t), g.weight)))
      ++ g.nodes.flatMap
        (fun x => (productEdges rest).map (fun e => ((x ++ e.1.1, x ++ e.1.2), e.2)))

/-- Product of the node counts of all factors other than the factor at
position p: those before p times those after p. -/
def otherNodesProd (fgs : List FactorGraph) (p : ℕ) : ℕ :=
  ((fgs.take p).map (fun g => g.nodes.length)).prod *
    ((fgs.drop (p + 1)).map (fun g => g.nodes.length)).prod

/-- Spec formula for the product graph edge count: the sum over factors of
that factor's edge count times the product of the other factors' node
counts. -/
def specEdgeCount (fgs : List FactorGraph) : ℕ :=
  ((List.range fgs.length).map
    (fun p => (fgs.getD p default).edges.length * otherNodesProd fgs p)).sum

lemma length_flatMap_map {α β γ : Type} (l : List α) (m : List β) (f : α → β → γ) :
    (l.flatMap (fun x => m.map (f x))).length = l.length * m.length := by
  induction l with
  | nil => simp
  | cons a l ih => simp [ih, Nat.succ_mul, Nat.add_comm]

lemma length_productNodes (fgs : List FactorGraph) :
    (productNodes fgs).length = (fgs.map (fun g => g.nodes.length)).prod := by
  induction fgs with
  | nil => simp [productNodes]
  | cons g rest ih =>
      rw [productNodes, length_flatMap_map, ih]
      simp

lemma otherNodesProd_cons_zero (g : FactorGraph) (rest : List FactorGraph) :
    otherNodesProd (g :: rest) 0 = (rest.map (fun h => h.nodes.length)).prod := by
  simp [otherNodesProd]

lemma otherNodesProd_cons_succ (g : FactorGraph) (rest : List FactorGraph) (p : ℕ) :
    otherNodesProd (g :: rest) (p + 1) = g.nodes.length * otherNodesProd rest p := by
  simp [otherNodesProd, mul_assoc]

lemma specEdgeCount_cons (g : FactorGraph) (rest : List FactorGraph) :
    specEdgeCount (g :: rest) =
      g.edges.length * (rest.map (fun h => h.nodes.length)).prod +
        g.nodes.length * specEdgeCount rest := by
  simp only [specEdgeCount, List.length_cons, List.range_succ_eq_map, List.map_cons,
    List.sum_cons, List.map_map]
  have h1 : (List.map ((fun p => ((g :: rest).getD p default).edges.length *
      otherNodesProd (g :: rest) p) ∘ Nat.succ) (List.range rest.length)) =
      List.map (fun p => g.nodes.length *
        ((rest.getD p default).edges.length * otherNodesProd rest p))
        (List.range rest.length) := by
    refine List.map_congr_left (fun p _ => ?_)
    simp only [Function.comp_apply, List.getD_cons_succ, otherNodesProd_cons_succ]
    ring
  rw [h1, List.sum_map_mul_left, List.getD_cons_zero, otherNodesProd_cons_zero]

lemma length_productEdges (fgs : List FactorGraph) :
    (productEdges fgs).length = specEdgeCount fgs := by
  induction fgs with
  | nil => simp [productEdges, specEdgeCount]
  | cons g rest ih =>
      rw [productEdges, List.length_append, length_flatMap_map, length_flatMap_map,
        specEdgeCount_cons, length_productNodes, ih]

/-- C2: for every sequence of factor graphs each with at least one node, the
product graph has node count equal to the product of the factor node counts,
and edge count equal to the sum over factors of that factor's edge count
times the product of the other factors' node counts. -/
theorem C2_product_graph_counts (fgs : List FactorGraph)
    (h : ∀ g ∈ fgs, g.nodes ≠ []) :
    (productNodes fgs).length = (fgs.map (fun g => g.nodes.length)).prod ∧
      (productEdges fgs).length = specEdgeCount fgs :=
  ⟨length_productNodes fgs, length_productEdges fgs⟩

/-- Miniature of the location factor of crime.py: a 2 by 2 grid whose nodes
are index pairs, as produced by networkx grid_2d_graph. -/
def grid2FG : FactorGraph :=
  ⟨[[0, 0], [0, 1], [1, 0], [1, 1]],
   [([0, 0], [0, 1]), ([1, 0], [1, 1]), ([0, 0], [1, 0]), ([0, 1], [1, 1])], 100⟩

/-- Cycle graph on four scalar nodes with a uniform edge weight, the factor
used in the spec scenarios (cycle(4)). -/
def cycle4FG (w : ℚ) : FactorGraph :=
  ⟨[[0], [1], [2], [3]],
   [([0], [1]), ([1], [2]), ([2], [3]), ([3], [0])], w⟩

/-- Witness for C2 at a concrete input: the product of the 2 by 2 grid and
the weighted 4-cycle has 4 * 4 = 16 nodes and 4 * 4 + 4 * 4 = 32 edges. -/
theorem C2_product_graph_counts_witness :
    (∀ g ∈ [grid2FG, cycle4FG 100], g.nodes ≠ []) ∧
      ((productNodes [grid2FG, cycle4FG 100]).length =
          ([grid2FG, cycle4FG 100].map (fun g => g.nodes.length)).prod ∧
        (productEdges [grid2FG, cycle4FG 100]).length =
          specEdgeCount [grid2FG, cycle4FG 100]) :=
  ⟨by decide, C2_product_graph_counts [grid2FG, cycle4FG 100] (by decide)⟩

lemma mem_productNodes (fgs : List FactorGraph) (n : Node) :
    n ∈ productNodes fgs ↔
      ∃ parts : List Node,
        List.Forall₂ (fun x g => x ∈ FactorGraph.nodes g) parts fgs ∧ n = parts.flatten := by
  induction fgs generalizing n with
  | nil =>
      simp only [productNodes, List.mem_singleton]
      constructor
      · rintro rfl
        exact ⟨[], List.Forall₂.nil, rfl⟩
      · rintro ⟨parts, hp, rfl⟩
        cases hp
        rfl
  | cons g rest ih =>
      simp only [productNodes, List.mem_flatMap, List.mem_map]
      constructor
      · rintro ⟨x, hx, t, ht, rfl⟩
        obtain ⟨parts, hp, rfl⟩ := (ih t).mp ht
        exact ⟨x :: parts, List.Forall₂.cons hx hp, rfl⟩
      · rintro ⟨parts, hp, rfl⟩
        cases hp with
        | cons hx hp =>
            rename_i x parts
            exact ⟨x, hx, parts.flatten, (ih parts.flatten).mpr ⟨parts, hp, rfl⟩, rfl⟩

lemma length_flatten_of_parts (parts : List Node) (fgs : List FactorGraph)
    (hp : List.Forall₂ (fun x g => x ∈ FactorGraph.nodes g) parts fgs)
    (h1 : ∀ g ∈ fgs, ∀ x ∈ FactorGraph.nodes g, x.length = 1) :
    parts.flatten.length = fgs.length := by
  revert h1
  induction hp with
  | nil => intro h1; rfl
  | cons hx hp ih =>
      intro h1
      rename_i x g parts2 fgs2
      have hx1 : x.length = 1 := h1 g (by simp) x hx
      have h2 : ∀ g2 ∈ fgs2, ∀ x2 ∈ FactorGraph.nodes g2, x2.length = 1 :=
        fun g2 hg2 => h1 g2 (by simp [hg2])
      simp only [List.flatten_cons, List.length_append, List.length_cons, hx1, ih h2]
      omega

/-- C9 counterexample: crime.py combines four factor graphs but addresses the
product with five-index keys (lines 82 and 140), because the grid factor's
nodes are pairs.  In miniature: the product of the 2 by 2 grid factor and the
4-cycle factor is a product of two factor graphs whose nodes are 3-tuples,
not 2-tuples. -/
theorem C9_counterexample :
    ¬ (∀ n ∈ productNodes [grid2FG, cycle4FG 100], n.length = 2) := by
  decide

/-- C9 (amended): every node of the product graph is the ordered
concatenation of exactly one node tuple per factor, in factor order, and node
identity is that tuple value; when every factor's nodes are single indices, a
product of k factor graphs yields k-tuples. -/
theorem C9_product_node_identity (fgs : List FactorGraph) :
    (∀ n : Node, n ∈ productNodes fgs ↔
        ∃ parts : List Node,
          List.Forall₂ (fun x g => x ∈ FactorGraph.nodes g) parts fgs ∧ n = parts.flatten) ∧
      ((∀ g ∈ fgs, ∀ x ∈ FactorGraph.nodes g, x.length = 1) →
        ∀ n ∈ productNodes fgs, n.length = fgs.length) := by
  refine ⟨mem_productNodes fgs, fun h1 n hn => ?_⟩
  obtain ⟨parts, hp, rfl⟩ := (mem_productNodes fgs n).mp hn
  exact length_flatten_of_parts parts fgs hp h1

/-- Failure of the stratum aggregation: crime.py raises a KeyError (the
KeyRangeError of the spec) when an event's computed key is not a node of the
product graph, carrying the offending key. -/
inductive AggError where
  | keyRangeError : Node → AggError
deriving DecidableEq

/-- Embedded from src/examples/crime.py lines 82 to 83: the dict access
events[key] += 1.  The events dict is an association list; a key absent from
it raises the error instead of being dropped. -/
def incKey : List (Node × ℕ) → Node → Except AggError (List (Node × ℕ))
  | [], k => .error (.keyRangeError k)
  | (n, c) :: rest, k =>
      if n = k then .ok ((n, c + 1) :: rest)
      else (incKey rest k).map (fun ev => (n, c) :: ev)

/-- Embedded from src/examples/crime.py lines 71 to 91 (df_to_data): start
every product node at count 0, add 1 at each record's extracted key, then read
the counts back in node order.  Records are given as their already extracted
key tuples (lines 77 to 82 compute the key from the row). -/
def df_to_data (nodes : List Node) (records : List Node) :
    Except AggError (List ℕ × List Node) := do
  let events ← records.foldlM incKey (nodes.map (fun n => (n, 0)))
  return (nodes.map (fun n => ((events.lookup n).getD 0)), nodes)

lemma incKey_keys (st : List (Node × ℕ)) (k : Node) (st2 : List (Node × ℕ))
    (h : incKey st k = .ok st2) : st2.map Prod.fst = st.map Prod.fst := by
  induction st generalizing st2 with
  | nil => simp [incKey] at h
  | cons a st ih =>
      obtain ⟨n, c⟩ := a
      rw [incKey] at h
      by_cases hk : n = k
      · rw [if_pos hk] at h
        cases h
        rfl
      · rw [if_neg hk] at h
        cases hrec : incKey st k with
        | error e => rw [hrec] at h; cases h
        | ok ev =>
            rw [hrec] at h
            cases h
            simpa using ih ev hrec

lemma incKey_not_mem (st : List (Node × ℕ)) (k : Node)
    (h : k ∉ st.map Prod.fst) : ∃ e, incKey st k = .error e := by
  induction st with
  | nil => exact ⟨.keyRangeError k, rfl⟩
  | cons a st ih =>
      obtain ⟨n, c⟩ := a
      simp only [List.map_cons, List.mem_cons] at h
      push_neg at h
      obtain ⟨e, he⟩ := ih h.2
      refine ⟨e, ?_⟩
      rw [incKey, if_neg (fun hnk => h.1 hnk.symm), he]
      rfl

lemma foldlM_incKey_fails (records : List Node) (st : List (Node × ℕ))
    (hst : ∃ r ∈ records, r ∉ st.map Prod.fst) :
    ∃ e, records.foldlM incKey st = .error e := by
  induction records generalizing st with
  | nil => simp at hst
  | cons r records ih =>
      rw [List.foldlM_cons]
      obtain ⟨r0, hr0, hout⟩ := hst
      by_cases hr : r ∈ st.map Prod.fst
      · cases hk : incKey st r with
        | error e => exact ⟨e, rfl⟩
        | ok st2 =>
            have hkeys := incKey_keys st r st2 hk
            rcases List.mem_cons.mp hr0 with h0 | h0
            · subst h0
              exact absurd hr hout
            · obtain ⟨e, he⟩ := ih st2 ⟨r0, h0, by rw [hkeys]; exact hout⟩
              exact ⟨e, by simpa using he⟩
      · obtain ⟨e, he⟩ := incKey_not_mem st r hr
        rw [he]
        exact ⟨e, rfl⟩

/-- C5: every aggregation whose records contain a key that is not a node of
the product graph fails with a KeyRangeError at such a record, rather than
silently dropping the event. -/
theorem C5_missing_key_fails (nodes records : List Node)
    (h : ∃ r ∈ records, r ∉ nodes) :
    ∃ k, df_to_data nodes records = .error (.keyRangeError k) := by
  obtain ⟨r, hr, hout⟩ := h
  have hst : ∃ r0 ∈ records, r0 ∉ (nodes.map (fun n => (n, 0))).map Prod.fst :=
    ⟨r, hr, by simpa using hout⟩
  obtain ⟨e, he⟩ := foldlM_incKey_fails records (nodes.map (fun n => (n, 0))) hst
  obtain ⟨k⟩ := e
  exact ⟨k, by rw [df_to_data, he]; rfl⟩

/-- Witness for C5 at the spec scenario: the key (5,) against the 4-node
cycle graph raises KeyRangeError. -/
theorem C5_missing_key_fails_witness :
    (∃ r ∈ [[5]], r ∉ productNodes [cycle4FG 100]) ∧
      ∃ k, df_to_data (productNodes [cycle4FG 100]) [[5]] = .error (.keyRangeError k) :=
  ⟨by decide, C5_missing_key_fails (productNodes [cycle4FG 100]) [[5]] (by decide)⟩

lemma incKey_shape (nodes : List Node) (f : Node → ℕ) (k : Node)
    (hnd : nodes.Nodup) (hk : k ∈ nodes) :
    incKey (nodes.map (fun n => (n, f n))) k =
      .ok (nodes.map (fun n => (n, if n = k then f n + 1 else f n))) := by
  induction nodes with
  | nil => simp at hk
  | cons n0 ns ih =>
      rw [List.map_cons, incKey]
      rcases List.nodup_cons.mp hnd with ⟨hn0, hndns⟩
      by_cases h0 : n0 = k
      · rw [if_pos h0]
        subst h0
        have : ns.map (fun n => (n, if n = n0 then f n + 1 else f n)) =
            ns.map (fun n => (n, f n)) := by
          refine List.map_congr_left (fun n hn => ?_)
          have hne : ¬ n = n0 := by
            intro he
            rw [he] at hn
            exact hn0 hn
          rw [if_neg hne]
        rw [List.map_cons, this, if_pos rfl]
      · rw [if_neg h0]
        have hkns : k ∈ ns := (List.mem_cons.mp hk).resolve_left (fun he => h0 he.symm)
        rw [ih hndns hkns]
        rw [List.map_cons, if_neg h0]
        rfl

lemma foldlM_incKey_counts (records nodes : List Node) (f : Node → ℕ)
    (hnd : nodes.Nodup) (hr : ∀ r ∈ records, r ∈ nodes) :
    records.foldlM incKey (nodes.map (fun n => (n, f n))) =
      .ok (nodes.map (fun n => (n, f n + records.count n))) := by
  induction records generalizing f with
  | nil => simp only [List.foldlM_nil, List.count_nil, Nat.add_zero]; rfl
  | cons r rs ih =>
      rw [List.foldlM_cons, incKey_shape nodes f r hnd (hr r (List.mem_cons_self r rs))]
      have hstep := ih (fun n => if n = r then f n + 1 else f n)
        (fun r2 hr2 => hr r2 (List.mem_cons_of_mem r hr2))
      show rs.foldlM incKey (nodes.map (fun n => (n, if n = r then f n + 1 else f n))) = _
      rw [hstep]
      have hmap : nodes.map (fun n => (n, (if n = r then f n + 1 else f n) + rs.count n)) =
          nodes.map (fun n => (n, f n + (r :: rs).count n)) := by
        refine List.map_congr_left (fun n hn => ?_)
        rw [List.count_cons]
        by_cases hnr : n = r
        · subst hnr
          simp
          omega
        · have : (r == n) = false := by simpa using fun he => hnr he.symm
          simp [hnr, this]
      rw [hmap]

lemma lookup_map_self {β : Type} (nodes : List Node) (g : Node → β) (n0 : Node)
    (h : n0 ∈ nodes) :
    (nodes.map (fun n => (n, g n))).lookup n0 = some (g n0) := by
  induction nodes with
  | nil => simp at h
  | cons m ns ih =>
      rw [List.map_cons, List.lookup_cons]
      by_cases hm : m = n0
      · subst hm
        simp
      · have hbeq : (n0 == m) = false := by simpa using fun he => hm he.symm
        rw [hbeq]
        exact ih ((List.mem_cons.mp h).resolve_left (fun he => hm he.symm))

lemma df_to_data_char (nodes records : List Node)
    (hnd : nodes.Nodup) (hr : ∀ r ∈ records, r ∈ nodes) :
    df_to_data nodes records = .ok (nodes.map (fun n => records.count n), nodes) := by
  rw [df_to_data]
  rw [foldlM_incKey_counts records nodes (fun _ => 0) hnd hr]
  show Except.ok (nodes.map fun n =>
      (((nodes.map (fun m => (m, 0 + records.count m))).lookup n).getD 0), nodes) = _
  have : nodes.map (fun n =>
      (((nodes.map (fun m => (m, 0 + records.count m))).lookup n).getD 0)) =
      nodes.map (fun n => records.count n) := by
    refine List.map_congr_left (fun n hn => ?_)
    rw [lookup_map_self nodes (fun m => 0 + records.count m) n hn]
    simp
  rw [this]

/-- C7: when every record's key is a node, aggregation succeeds and returns
the dense count vector in product node order: node n carries the number of
records whose key is n (0 when none), every node appears exactly once, and
the vector length is the node count. -/
theorem C7_aggregate_dense_counts (nodes records : List Node)
    (hnd : nodes.Nodup) (hr : ∀ r ∈ records, r ∈ nodes) :
    df_to_data nodes records = .ok (nodes.map (fun n => records.count n), nodes) ∧
      (nodes.map (fun n => records.count n)).length = nodes.length :=
  ⟨df_to_data_char nodes records hnd hr, List.length_map nodes _⟩

/-- Witness for C7 at a concrete input: three events on the 4-cycle land in
counts [0, 2, 0, 1] over the four product nodes. -/
theorem C7_aggregate_dense_counts_witness :
    (productNodes [cycle4FG 100]).Nodup ∧
      (∀ r ∈ [[1], [1], [3]], r ∈ productNodes [cycle4FG 100]) ∧
      (df_to_data (productNodes [cycle4FG 100]) [[1], [1], [3]] =
          .ok ((productNodes [cycle4FG 100]).map
            (fun n => ([[1], [1], [3]] : List Node).count n), productNodes [cycle4FG 100]) ∧
        ((productNodes [cycle4FG 100]).map
          (fun n => ([[1], [1], [3]] : List Node).count n)).length =
          (productNodes [cycle4FG 100]).length) :=
  ⟨by decide, by decide,
    C7_aggregate_dense_counts (productNodes [cycle4FG 100]) [[1], [1], [3]]
      (by decide) (by decide)⟩

lemma sum_map_add {α : Type} (l : List α) (f g : α → ℕ) :
    (l.map (fun x => f x + g x)).sum = (l.map f).sum + (l.map g).sum := by
  induction l with
  | nil => rfl
  | cons a l ih =>
      simp only [List.map_cons, List.sum_cons, ih]
      omega

lemma sum_indicator_one (nodes : List Node) (r : Node)
    (hnd : nodes.Nodup) (hr : r ∈ nodes) :
    (nodes.map (fun n => if r = n then 1 else 0)).sum = 1 := by
  induction nodes with
  | nil => simp at hr
  | cons m ns ih =>
      rcases List.nodup_cons.mp hnd with ⟨hm, hndns⟩
      rw [List.map_cons, List.sum_cons]
      by_cases hrm : r = m
      · subst hrm
        have : ns.map (fun n => if r = n then 1 else 0) = ns.map (fun _ => 0) := by
          refine List.map_congr_left (fun n hn => ?_)
          have hne : ¬ r = n := by
            intro he
            rw [he] at hm
            exact hm hn
          rw [if_neg hne]
        rw [if_pos rfl, this]
        simp
      · rw [if_neg hrm]
        have : r ∈ ns := (List.mem_cons.mp hr).resolve_left hrm
        rw [ih hndns this]

lemma sum_counts (nodes records : List Node)
    (hnd : nodes.Nodup) (hr : ∀ r ∈ records, r ∈ nodes) :
    (nodes.map (fun n => records.count n)).sum = records.length := by
  induction records with
  | nil => simp
  | cons r rs ih =>
      have hsplit : nodes.map (fun n => (r :: rs).count n) =
          nodes.map (fun n => rs.count n + (if r = n then 1 else 0)) := by
        refine List.map_congr_left (fun n hn => ?_)
        rw [List.count_cons]
        by_cases hnr : r = n
        · simp [hnr]
        · have : (r == n) = false := by simpa using hnr
          simp [this, hnr]
      rw [hsplit, sum_map_add, ih (fun r2 hr2 => hr r2 (List.mem_cons_of_mem r hr2)),
        sum_indicator_one nodes r hnd (hr r (List.mem_cons_self r rs))]
      simp

/-- C10: when every record's key is a node, the aggregated counts sum to the
number of input records: each record contributes exactly 1 to exactly one
node, so aggregation conserves the total event count. -/
theorem C10_aggregation_conserves_total (nodes records : List Node)
    (hnd : nodes.Nodup) (hr : ∀ r ∈ records, r ∈ nodes) :
    ∃ Y, df_to_data nodes records = .ok (Y, nodes) ∧ Y.sum = records.length :=
  ⟨nodes.map (fun n => records.count n), df_to_data_char nodes records hnd hr,
    sum_counts nodes records hnd hr⟩

/-- Witness for C10 at a concrete input: three events on the 4-cycle yield a
count vector summing to 3. -/
theorem C10_aggregation_conserves_total_witness :
    (productNodes [cycle4FG 100]).Nodup ∧
      (∀ r ∈ [[1], [1], [3]], r ∈ productNodes [cycle4FG 100]) ∧
      ∃ Y, df_to_data (productNodes [cycle4FG 100]) [[1], [1], [3]] =
          .ok (Y, productNodes [cycle4FG 100]) ∧ Y.sum = ([[1], [1], [3]] : List Node).length :=
  ⟨by decide, by decide,
    C10_aggregation_conserves_total (productNodes [cycle4FG 100]) [[1], [1], [3]]
      (by decide) (by decide)⟩

/-- Failure of the evaluator: a non-positive rate at a node with a positive
observed count makes the log-likelihood undefined. -/
inductive EvalError where
  | domainError
deriving DecidableEq

/-- Modelled from the spec: cvxstrat Poisson.anll is not under src/ (crime.py
lines 108 to 109 only call it).  It computes the mean over nodes of the
normalized Poisson negative log-likelihood, minus y times log theta, plus
theta, plus log of y factorial, and fails with DomainError when some rate is
non-positive at a node whose count is positive, instead of silently returning
infinity.  Rates are passed as exact rationals (the callers supply finite
floating-point rates); only their sign matters to the domain check. -/
noncomputable def anll (theta : List ℚ) (y : List ℕ) : Except EvalError ℝ :=
  if (theta.zip y).all (fun p => decide (0 < p.2 → 0 < p.1)) then
    .ok ((((theta.zip y).map
      (fun p => -(p.2 : ℝ) * Real.log (p.1 : ℝ) + (p.1 : ℝ) +
        Real.log (Nat.factorial p.2))).sum) / (theta.zip y).length)
  else .error .domainError

/-- C6: the evaluator fails with DomainError whenever some node has a
non-positive rate together with a positive observed count. -/
theorem C6_anll_domain_error (theta : List ℚ) (y : List ℕ)
    (h : ∃ p ∈ theta.zip y, p.1 ≤ 0 ∧ 0 < p.2) :
    anll theta y = .error .domainError := by
  rw [anll, if_neg]
  intro hall
  obtain ⟨p, hp, h1, h2⟩ := h
  have := List.all_eq_true.mp hall p hp
  rw [decide_eq_true_iff] at this
  exact absurd (this h2) (not_lt.mpr h1)

/-- Witness for C6 at the spec scenario: rates [0, 1, 1, 1] against counts
[1, 0, 0, 0] raise DomainError on the first node. -/
theorem C6_anll_domain_error_witness :
    (∃ p ∈ ([0, 1, 1, 1] : List ℚ).zip [1, 0, 0, 0], p.1 ≤ 0 ∧ 0 < p.2) ∧
      anll [0, 1, 1, 1] [1, 0, 0, 0] = .error .domainError :=
  ⟨by decide, C6_anll_domain_error [0, 1, 1, 1] [1, 0, 0, 0] (by decide)⟩

/-- Modelled from the spec: the per-node Poisson negative log-likelihood term
of the fitting objective, theta minus y times log theta (section 4.3). -/
noncomputable def poissonTerm (y : ℕ) (t : ℝ) : ℝ := t - y * Real.log t

/-- Modelled from the spec: the graph-regularized fitting objective of the
StratifiedEstimator (section 4.3): the Poisson negative log-likelihood summed
over the product nodes plus the Laplacian smoothing penalty, a weighted sum
of squared differences over the product edges.  The cvxstrat fitting code is
not under src/, and the spec leaves its inner solver open, committing only to
minimizing this objective; fit is therefore modelled by its minimizer
contract. -/
noncomputable def objective (nodes : List Node) (edges : List ((Node × Node) × ℚ))
    (y : Node → ℕ) (θ : Node → ℝ) : ℝ :=
  (nodes.map (fun n => poissonTerm (y n) (θ n))).sum +
    (edges.map (fun e => (e.2 : ℝ) * (θ e.1.1 - θ e.1.2) ^ 2)).sum

lemma poissonTerm_cast_le (y : ℕ) (t : ℝ) (ht : 0 < t) :
    poissonTerm y (y : ℝ) ≤ poissonTerm y t := by
  rcases Nat.eq_zero_or_pos y with hy | hy
  · subst hy
    simp only [poissonTerm, Nat.cast_zero, zero_mul, sub_zero, Real.log_zero, mul_zero]
    exact le_of_lt ht
  · have hy0 : (0 : ℝ) < y := by exact_mod_cast hy
    have hdiv : (0 : ℝ) < t / y := div_pos ht hy0
    have hlog := Real.log_le_sub_one_of_pos hdiv
    rw [Real.log_div (ne_of_gt ht) (ne_of_gt hy0)] at hlog
    have h2 : (y : ℝ) * (Real.log t - Real.log y) ≤ (y : ℝ) * (t / y - 1) :=
      mul_le_mul_of_nonneg_left hlog (le_of_lt hy0)
    have h3 : (y : ℝ) * (t / y - 1) = t - y := by
      field_simp
    rw [h3] at h2
    simp only [poissonTerm]
    nlinarith [h2]

lemma penalty_zero (edges : List ((Node × Node) × ℚ)) (θ : Node → ℝ)
    (hw : ∀ e ∈ edges, e.2 = 0) :
    (edges.map (fun e => (e.2 : ℝ) * (θ e.1.1 - θ e.1.2) ^ 2)).sum = 0 := by
  refine List.sum_eq_zero (fun x hx => ?_)
  obtain ⟨e, he, rfl⟩ := List.mem_map.mp hx
  rw [hw e he]
  simp

/-- C1: on a product graph whose edges all carry weight 0 the fitting
objective is minimized by the independent per-node Poisson maximum-likelihood
solution: the rate vector that assigns every node its observed count is a
minimizer over positive rate vectors of the regularized objective. -/
theorem C1_zero_weight_fit_is_counts (nodes : List Node)
    (edges : List ((Node × Node) × ℚ)) (y : Node → ℕ) (θ : Node → ℝ)
    (hw : ∀ e ∈ edges, e.2 = 0) (hθ : ∀ n ∈ nodes, 0 < θ n) :
    objective nodes edges y (fun n => (y n : ℝ)) ≤ objective nodes edges y θ := by
  simp only [objective]
  have hp1 : (List.map (fun e => ((e.2 : ℚ) : ℝ) *
      (((y e.1.1 : ℕ) : ℝ) - ((y e.1.2 : ℕ) : ℝ)) ^ 2) edges).sum = 0 := by
    refine List.sum_eq_zero (fun x hx => ?_)
    obtain ⟨e, he, rfl⟩ := List.mem_map.mp hx
    rw [hw e he]
    simp
  have hp2 := penalty_zero edges θ hw
  have hnll : (List.map (fun n => poissonTerm (y n) ((y n : ℕ) : ℝ)) nodes).sum ≤
      (List.map (fun n => poissonTerm (y n) (θ n)) nodes).sum :=
    List.sum_le_sum (fun n hn => poissonTerm_cast_le (y n) (θ n) (hθ n hn))
  rw [hp1, hp2]
  simpa using hnll

/-- Counts of the spec scenario for C1: [2, 0, 4, 2] at the nodes of the
4-cycle. -/
def yScenario : Node → ℕ :=
  fun n => if n = [0] then 2 else if n = [1] then 0 else if n = [2] then 4 else 2

/-- Witness for C1 at the spec scenario: the 4-cycle with all edge weights 0
and counts [2, 0, 4, 2]; the count vector itself minimizes the objective,
here compared against the all-ones rate vector. -/
theorem C1_zero_weight_fit_is_counts_witness :
    (∀ e ∈ productEdges [cycle4FG 0], e.2 = 0) ∧
      (∀ n ∈ productNodes [cycle4FG 0], (0 : ℝ) < 1) ∧
      objective (productNodes [cycle4FG 0]) (productEdges [cycle4FG 0]) yScenario
          (fun n => (yScenario n : ℝ)) ≤
        objective (productNodes [cycle4FG 0]) (productEdges [cycle4FG 0]) yScenario
          (fun _ => 1) :=
  ⟨by decide, fun n _ => one_pos,
    C1_zero_weight_fit_is_counts (productNodes [cycle4FG 0]) (productEdges [cycle4FG 0])
      yScenario (fun _ => 1) (by decide) (fun n _ => one_pos)⟩

/-- Modelled from the spec: the pooled fitting objective on the single-node
graph of crime.py line 130, where every observed count of the count vector is
attached to the one node: the Poisson negative log-likelihood of rate t summed
over all the counts. -/
noncomputable def pooledNll (y : List ℕ) (t : ℝ) : ℝ :=
  (y.map (fun yi : ℕ => t - (yi : ℝ) * Real.log t)).sum

/-- Mean of the entries of a count vector. -/
noncomputable def meanCount (y : List ℕ) : ℝ := (y.sum : ℝ) / (y.length : ℝ)

lemma pooledNll_closed (y : List ℕ) (t : ℝ) :
    pooledNll y t = (y.length : ℝ) * t - (y.sum : ℝ) * Real.log t := by
  induction y with
  | nil => simp [pooledNll]
  | cons a l ih =>
      rw [pooledNll, List.map_cons, List.sum_cons]
      rw [pooledNll] at ih
      rw [ih, List.length_cons, List.sum_cons]
      push_cast
      ring

/-- C3: on the single-node graph with no edges (the fully pooled model) the
fitted rate equals the mean of the count vector: the mean minimizes the
pooled objective over positive rates. -/
theorem C3_pooled_theta_is_mean (y : List ℕ) (hy : y ≠ []) (t : ℝ) (ht : 0 < t) :
    pooledNll y (meanCount y) ≤ pooledNll y t := by
  have hN : (0 : ℝ) < (y.length : ℝ) := by
    have := List.length_pos.mpr hy
    exact_mod_cast this
  rw [pooledNll_closed, pooledNll_closed, meanCount]
  rcases Nat.eq_zero_or_pos y.sum with hS | hS
  · rw [hS]
    simp only [Nat.cast_zero, zero_div, mul_zero, zero_mul, sub_zero]
    positivity
  · have hS0 : (0 : ℝ) < (y.sum : ℝ) := by exact_mod_cast hS
    have hm : (0 : ℝ) < (y.sum : ℝ) / (y.length : ℝ) := div_pos hS0 hN
    have hdiv : (0 : ℝ) < t / ((y.sum : ℝ) / (y.length : ℝ)) := div_pos ht hm
    have hlog := Real.log_le_sub_one_of_pos hdiv
    rw [Real.log_div (ne_of_gt ht) (ne_of_gt hm)] at hlog
    have h2 : (y.sum : ℝ) * (Real.log t - Real.log ((y.sum : ℝ) / (y.length : ℝ))) ≤
        (y.sum : ℝ) * (t / ((y.sum : ℝ) / (y.length : ℝ)) - 1) :=
      mul_le_mul_of_nonneg_left hlog (le_of_lt hS0)
    have hsum_ne : (y.sum : ℝ) ≠ 0 := ne_of_gt hS0
    have hlen_ne : (y.length : ℝ) ≠ 0 := ne_of_gt hN
    have h3 : (y.sum : ℝ) * (t / ((y.sum : ℝ) / (y.length : ℝ)) - 1) =
        (y.length : ℝ) * t - (y.sum : ℝ) := by
      rw [div_div_eq_mul_div, mul_sub, mul_one, mul_comm ((y.sum : ℝ)) _,
        div_mul_cancel₀ _ hsum_ne]
      ring
    rw [h3] at h2
    have h4 : (y.length : ℝ) * ((y.sum : ℝ) / (y.length : ℝ)) = (y.sum : ℝ) := by
      rw [mul_comm, div_mul_cancel₀ _ hlen_ne]
    nlinarith [h2, h4]

/-- Witness for C3 at a concrete input: counts [2, 0, 4, 2] pooled on the
single node; the mean rate 2 beats the rate 1. -/
theorem C3_pooled_theta_is_mean_witness :
    ([2, 0, 4, 2] : List ℕ) ≠ [] ∧ (0 : ℝ) < 1 ∧
      pooledNll [2, 0, 4, 2] (meanCount [2, 0, 4, 2]) ≤ pooledNll [2, 0, 4, 2] 1 :=
  ⟨by decide, one_pos, C3_pooled_theta_is_mean [2, 0, 4, 2] (by decide) 1 one_pos⟩

/-- Modelled from the spec: the per-node convex sub-problem of one iteration
of the consensus method (section 4.3 step 2a): the local Poisson term plus a
quadratic coupling of strength rho toward the neighbor-averaged target v. -/
noncomputable def localObj (ρ v : ℝ) (y : ℕ) (t : ℝ) : ℝ :=
  t - y * Real.log t + ρ / 2 * (t - v) ^ 2

/-- Modelled from the spec: the per-node update of the consensus method,
the solution of the per-node sub-problem on the feasible region t ≥ 0 (the
non-negative root of its stationarity equation), rather than an unconstrained
solution clipped afterward. -/
noncomputable def thetaUpdate (ρ v : ℝ) (y : ℕ) : ℝ :=
  ((ρ * v - 1) + Real.sqrt ((ρ * v - 1) ^ 2 + 4 * ρ * y)) / (2 * ρ)

/-- Modelled from the spec: the sequence of node-estimate vectors of a fit
run.  The function targets gives, for each iteration, the neighbor-averaged
targets computed from the previous state and the edge prices; leaving it
arbitrary makes the invariants below hold for every such dependence. -/
noncomputable def fitIterates (ρ : ℝ) (y : List ℕ) (targets : ℕ → List ℝ) : ℕ → List ℝ
  | 0 => y.map (fun c : ℕ => (c : ℝ))
  | k + 1 => ((targets k).zip y).map (fun p => thetaUpdate ρ p.1 p.2)

lemma thetaUpdate_nonneg (ρ v : ℝ) (y : ℕ) (hρ : 0 < ρ) : 0 ≤ thetaUpdate ρ v y := by
  have hy : (0 : ℝ) ≤ 4 * ρ * y := by positivity
  have h1 : Real.sqrt ((ρ * v - 1) ^ 2) ≤ Real.sqrt ((ρ * v - 1) ^ 2 + 4 * ρ * y) :=
    Real.sqrt_le_sqrt (by linarith)
  rw [Real.sqrt_sq_eq_abs] at h1
  have h2 : -(ρ * v - 1) ≤ |ρ * v - 1| := neg_le_abs _
  apply div_nonneg _ (by positivity)
  linarith

lemma thetaUpdate_stationary (ρ v : ℝ) (y : ℕ) (hρ : 0 < ρ) :
    ρ * thetaUpdate ρ v y ^ 2 + (1 - ρ * v) * thetaUpdate ρ v y - y = 0 := by
  have hs : Real.sqrt ((ρ * v - 1) ^ 2 + 4 * ρ * y) ^ 2 = (ρ * v - 1) ^ 2 + 4 * ρ * y :=
    Real.sq_sqrt (by positivity)
  rw [thetaUpdate]
  have hne : (2 * ρ) ≠ 0 := by positivity
  field_simp
  linear_combination (2 * ρ ^ 2) * hs

lemma thetaUpdate_optimal (ρ v : ℝ) (y : ℕ) (hρ : 0 < ρ) (t : ℝ) (ht : 0 < t) :
    localObj ρ v y (thetaUpdate ρ v y) ≤ localObj ρ v y t := by
  have hstat := thetaUpdate_stationary ρ v y hρ
  rcases lt_or_eq_of_le (thetaUpdate_nonneg ρ v y hρ) with hθ | hθ
  · -- interior solution: the update is positive
    have hθne : thetaUpdate ρ v y ≠ 0 := ne_of_gt hθ
    have hlog : Real.log t - Real.log (thetaUpdate ρ v y) ≤ t / thetaUpdate ρ v y - 1 := by
      rw [← Real.log_div (ne_of_gt ht) hθne]
      exact Real.log_le_sub_one_of_pos (div_pos ht hθ)
    have h5 : (y : ℝ) * (Real.log t - Real.log (thetaUpdate ρ v y)) ≤
        (y : ℝ) * (t / thetaUpdate ρ v y - 1) :=
      mul_le_mul_of_nonneg_left hlog (Nat.cast_nonneg y)
    have hystat : (y : ℝ) = ρ * thetaUpdate ρ v y ^ 2 + (1 - ρ * v) * thetaUpdate ρ v y := by
      linarith
    have h6 : (y : ℝ) * (t / thetaUpdate ρ v y - 1) =
        (ρ * thetaUpdate ρ v y + 1 - ρ * v) * (t - thetaUpdate ρ v y) := by
      rw [hystat]
      field_simp
      ring
    simp only [localObj]
    nlinarith [h5, h6, mul_nonneg (le_of_lt hρ) (sq_nonneg (t - thetaUpdate ρ v y))]
  · -- boundary solution: the update is 0, forcing y = 0 and rho v at most 1
    have hy0 : (y : ℝ) = 0 := by
      rw [← hθ] at hstat
      simpa using hstat
    have hsum : ρ * v - 1 + Real.sqrt ((ρ * v - 1) ^ 2 + 4 * ρ * y) = 0 := by
      have h0 := hθ.symm
      rw [thetaUpdate, div_eq_zero_iff] at h0
      rcases h0 with h0 | h0
      · exact h0
      · exact absurd h0 (by positivity)
    have ha : ρ * v - 1 ≤ 0 := by
      have := Real.sqrt_nonneg ((ρ * v - 1) ^ 2 + 4 * ρ * y)
      linarith
    simp only [localObj, ← hθ, hy0]
    simp only [zero_mul, sub_zero, zero_sub, neg_sq]
    nlinarith [mul_nonneg (le_of_lt ht) (by linarith : (0 : ℝ) ≤ 1 - ρ * v),
      mul_nonneg (le_of_lt hρ) (sq_nonneg t)]

/-- C4: for every positive coupling strength, every iterate of the fitting
loop keeps every node rate non-negative, and the per-node update is the exact
minimizer of the per-node sub-problem over its feasible region (so feasibility
is maintained by solving within the region, not by clipping); in particular
the rates of the returned model, the last iterate, are all non-negative. -/
theorem C4_theta_nonneg_in_feasible_region (ρ : ℝ) (hρ : 0 < ρ) :
    (∀ (y : List ℕ) (targets : ℕ → List ℝ) (k : ℕ),
        ∀ t ∈ fitIterates ρ y targets k, 0 ≤ t) ∧
      (∀ (v : ℝ) (c : ℕ) (t : ℝ), 0 < t →
        localObj ρ v c (thetaUpdate ρ v c) ≤ localObj ρ v c t) := by
  constructor
  · intro y targets k t ht
    cases k with
    | zero =>
        obtain ⟨c, hc, rfl⟩ := List.mem_map.mp ht
        exact Nat.cast_nonneg c
    | succ k =>
        obtain ⟨p, hp, rfl⟩ := List.mem_map.mp ht
        exact thetaUpdate_nonneg ρ p.1 p.2 hρ
  · exact fun v c t ht => thetaUpdate_optimal ρ v c hρ t ht

/-- Witness for C4 at the coupling strength 1. -/
theorem C4_theta_nonneg_in_feasible_region_witness :
    (0 : ℝ) < 1 ∧
      ((∀ (y : List ℕ) (targets : ℕ → List ℝ) (k : ℕ),
          ∀ t ∈ fitIterates 1 y targets k, 0 ≤ t) ∧
        (∀ (v : ℝ) (c : ℕ) (t : ℝ), 0 < t →
          localObj 1 v c (thetaUpdate 1 v c) ≤ localObj 1 v c t)) :=
  ⟨one_pos, C4_theta_nonneg_in_feasible_region 1 one_pos⟩

/-- Convergence metadata of a fit: iterations used and whether the residual
tolerances were met before the iteration cap. -/
structure ConvergenceInfo where
  iterations : ℕ
  converged : Bool
deriving DecidableEq

/-- Modelled from the spec: the iteration loop of StratifiedEstimator.fit.
step is one iteration of the consensus method and tolMet the primal and dual
residual test against abs_tol and rel_tol; the loop stops when the test holds
or the remaining iteration budget is spent, and in both cases returns the
current estimate with its ConvergenceInfo instead of failing. -/
def fitLoop {α : Type} (step : α → α) (tolMet : α → Bool) :
    ℕ → ℕ → α → α × ConvergenceInfo
  | 0, used, s => if tolMet s then (s, ⟨used, true⟩) else (s, ⟨used, false⟩)
  | f + 1, used, s =>
      if tolMet s then (s, ⟨used, true⟩) else fitLoop step tolMet f (used + 1) (step s)

/-- Modelled from the spec: fit runs the loop with the full maxiter budget. -/
def fit {α : Type} (step : α → α) (tolMet : α → Bool) (maxiter : ℕ) (s0 : α) :
    α × ConvergenceInfo :=
  fitLoop step tolMet maxiter 0 s0

lemma fitLoop_spec {α : Type} (step : α → α) (tolMet : α → Bool) (fuel : ℕ) :
    ∀ (used : ℕ) (s : α), ∃ k ≤ fuel,
      (fitLoop step tolMet fuel used s).1 = step^[k] s ∧
      (fitLoop step tolMet fuel used s).2.iterations = used + k ∧
      ((fitLoop step tolMet fuel used s).2.converged =
        tolMet (fitLoop step tolMet fuel used s).1) ∧
      ((fitLoop step tolMet fuel used s).2.converged = false → k = fuel) := by
  induction fuel with
  | zero =>
      intro used s
      refine ⟨0, le_refl 0, ?_⟩
      rw [fitLoop]
      by_cases h : tolMet s
      · rw [if_pos h]
        exact ⟨rfl, rfl, h.symm, fun habs => rfl⟩
      · rw [if_neg h]
        exact ⟨rfl, rfl, (Bool.not_eq_true (tolMet s)).mp h |>.symm, fun _ => rfl⟩
  | succ f ih =>
      intro used s
      rw [fitLoop]
      by_cases h : tolMet s
      · rw [if_pos h]
        exact ⟨0, Nat.zero_le (f + 1), rfl, rfl, h.symm, fun habs => by cases habs⟩
      · rw [if_neg h]
        obtain ⟨k, hk, h1, h2, h3, h4⟩ := ih (used + 1) (step s)
        refine ⟨k + 1, Nat.succ_le_succ hk, ?_, ?_, h3, fun hc => by rw [h4 hc]⟩
        · rw [Function.iterate_succ_apply]
          exact h1
        · rw [h2]
          omega

/-- C8: fit never fails: for every step function, tolerance test, iteration
cap and start state it returns an estimate that is the k-th iterate for some
k at most maxiter, with a ConvergenceInfo whose iteration count is k and
whose converged flag reports exactly whether the tolerances were met at the
returned estimate; when the tolerances are never met the loop uses the whole
budget and flags converged = false while still returning the estimate. -/
theorem C8_fit_reports_convergence {α : Type} (step : α → α) (tolMet : α → Bool)
    (maxiter : ℕ) (s0 : α) :
    ∃ k ≤ maxiter,
      (fit step tolMet maxiter s0).1 = step^[k] s0 ∧
      (fit step tolMet maxiter s0).2.iterations = k ∧
      ((fit step tolMet maxiter s0).2.converged =
        tolMet (fit step tolMet maxiter s0).1) ∧
      ((∀ j, tolMet (step^[j] s0) = false) →
        (fit step tolMet maxiter s0).2.converged = false ∧
          (fit step tolMet maxiter s0).2.iterations = maxiter) := by
  obtain ⟨k, hk, h1, h2, h3, h4⟩ := fitLoop_spec step tolMet maxiter 0 s0
  simp only [fit]
  refine ⟨k, hk, h1, by simpa using h2, h3, fun hnever => ?_⟩
  have hc : (fitLoop step tolMet maxiter 0 s0).2.converged = false := by
    rw [h3, h1, hnever k]
  exact ⟨hc, by rw [h2, Nat.zero_add, h4 hc]⟩

end Cvxstrat
